import Mathlib

/-!
Verification of the fused TPU single-step decoding attention kernel,
`axlearn/common/flash_attention/tpu_decoding.py`.

Modelling conventions (shallow embedding over exact real arithmetic):

* Tensors are curried real-valued functions.  The kernel body operates row-wise
  on the `q_seq_head × head_dim` query block (each query row has its own `m`,
  `l` and `o` accumulator and rows never interact), so we model one query row
  of one `(batch, kv_head)` grid lane; the batch and kv-head grid dimensions
  are declared "parallel" in the source and lanes share no state.
* `NEG_INF` (imported by the source from `axlearn.common.attention_bias`, a
  file not in this tree) is modelled from the spec as genuine negative
  infinity: logits live in `WithBot ℝ`, a masked position has logit `⊥`, and
  `expSub x m` models `exp(x - m)` with `exp(-∞ - m) = 0`, so masked
  positions contribute exactly zero to `l` and `o` as §4.3 of the spec
  states.  (`exp(NEG_INF - NEG_INF)` is also modelled as `0`; in float
  arithmetic a lane whose visited prefix is entirely masked holds garbage
  that is later killed by the `exp(m_prev - m_next) = 0` correction, and the
  two models agree on every finalized output covered by the theorems below.)
* Floating point rounding is abstracted away: dtype casts
  (`.astype(q.dtype)`, `.astype(v.dtype)`, `.astype(o_ref.dtype)`) and the
  dot-product `precision` argument are identities over `ℝ`, and the
  `jnp.maximum(qk, NEG_INF)` clamp after adding a (finite, real) explicit
  bias is the identity when `NEG_INF = ⊥`.
* Division is Lean real division, with `x / 0 = 0`.
-/

namespace TpuDecoding

/-- Logits of the decoding kernel: a real score, or `⊥` for a masked position
(the source writes `NEG_INF` there). -/
abbrev Logit := WithBot ℝ

/-- Models `exp(x - m)` on kernel logits: any expression with a `-∞` argument
underflows to `0`, otherwise it is the real exponential of the difference. -/
noncomputable def expSub (x m : Logit) : ℝ :=
  WithBot.recBotCoe 0 (fun a => WithBot.recBotCoe 0 (fun b => Real.exp (a - b)) m) x

/-- Models `exp x` on kernel logits, with `exp (-∞) = 0`.  `eexp (logit j)` is
the unnormalized softmax weight of key position `j`. -/
noncomputable def eexp (x : Logit) : ℝ :=
  WithBot.recBotCoe 0 Real.exp x

/-- Accumulator state of one query row of a grid lane: running max `m_i`,
running normalizer `l_i` and unnormalized output `o_scratch` of the kernel. -/
structure Acc where
  m : Logit
  l : ℝ
  o : ℕ → ℝ

/-- The `init` block of `_tpu_decoding_kernel`: `m_i = NEG_INF`, `l_i = 0`,
`o_scratch = 0`. -/
noncomputable def initAcc : Acc :=
  { m := ⊥, l := 0, o := fun _ => 0 }

/-- Running maximum of the logits of a list of key positions (`⊥` if the list
is empty or all positions are masked). -/
noncomputable def supList (logit : ℕ → Logit) : List ℕ → Logit
  | [] => ⊥
  | j :: rest => max (logit j) (supList logit rest)

/-- Absolute key positions of the KV block starting at `lo`, of size `bk`
(the source forms them as `kv_offset + lax.broadcasted_iota ...`). -/
def blockPositions (bk lo : ℕ) : List ℕ :=
  (List.range bk).map (fun t => lo + t)

/-- The per-block row maximum `m_curr = qk.max(axis=-1)` of the kernel. -/
noncomputable def blockMax (logit : ℕ → Logit) (lo bk : ℕ) : Logit :=
  supList logit (blockPositions bk lo)

/-- The `compute` block of `_tpu_decoding_kernel` for the KV block starting at
absolute position `lo`: the streaming-softmax update
`m_next = max(m_prev, m_curr)`, `correction = exp(m_prev - m_next)`,
`l_next = correction * l_prev + sum (exp (qk - m_next))`,
`o_next = correction * o_prev + exp (qk - m_next) · V`. -/
noncomputable def computeBlock (logit : ℕ → Logit) (v : ℕ → ℕ → ℝ) (bk lo : ℕ)
    (acc : Acc) : Acc :=
  let mnext := max acc.m (blockMax logit lo bk)
  let corr := expSub acc.m mnext
  { m := mnext
  , l := corr * acc.l + ((blockPositions bk lo).map (fun j => expSub (logit j) mnext)).sum
  , o := fun i =>
      corr * acc.o i
        + ((blockPositions bk lo).map (fun j => expSub (logit j) mnext * v j i)).sum }

/-- Sequential scan of the kernel over a list of non-empty KV block indices
(the `"arbitrary"`-semantics third grid dimension), starting from the
freshly initialized accumulator. -/
noncomputable def runBlocks (logit : ℕ → Logit) (v : ℕ → ℕ → ℝ) (bk : ℕ)
    (L : List ℕ) : Acc :=
  L.foldl (fun acc c => computeBlock logit v bk (c * bk) acc) initAcc

/-- All absolute key positions covered by a list of KV block indices. -/
def posList (bk : ℕ) : List ℕ → List ℕ
  | [] => []
  | c :: rest => blockPositions bk (c * bk) ++ posList bk rest

/-- Modelled from the spec: `build_mask` from
`axlearn/common/flash_attention/common.py` (not in this tree).  Entry `(i, j)`
of the block map is true iff at least one `(q, k)` pair of query block `i` and
key block `j` is unmasked (§4.1 of the spec). -/
def build_mask_entry (mask : ℕ → ℕ → Bool) (bq bk i j : ℕ) : Bool :=
  (List.range bq).any (fun a => (List.range bk).any (fun t => mask (i * bq + a) (j * bk + t)))

/-- Ascending list of the non-empty KV block indices of query-block row `r`. -/
def validBlockList (mask : ℕ → ℕ → Bool) (nb bs r : ℕ) : List ℕ :=
  (List.range nb).filter (fun j => build_mask_entry mask bs bs r j)

/-- Modelled from the spec: one row of the `offset` table returned by
`query_iterator_indices` from `axlearn/common/flash_attention/common.py` (not
in this tree): the ascending non-empty block indices of the row, padded with
the sentinel `-1` to the fixed width `nb` (§3 "Block Offset Table"). -/
def query_iterator_row (A : List ℕ) (nb : ℕ) : List ℤ :=
  A.map (fun j => ((j : ℕ) : ℤ)) ++ List.replicate (nb - A.length) (-1)

/-- The row `offset[(kv_seq_len - 1) // block_size]` selected by the driver
(`tpu_decoding.py` line 230). -/
def offsetRow (mask : ℕ → ℕ → Bool) (nb bs kvLen : ℕ) : List ℤ :=
  query_iterator_row (validBlockList mask nb bs ((kvLen - 1) / bs)) nb

/-- The per-batch valid-block count `kv_block_offset_size` (line 232): the
number of entries that are not the sentinel and whose block starts below the
true KV length. -/
def kv_block_offset_size (row : List ℤ) (bs kvLen : ℕ) : ℕ :=
  row.countP (fun e => decide (e ≠ -1) && decide (e * (bs : ℤ) < (kvLen : ℤ)))

/-- The row maximum `kv_block_offset.max(axis=1)` (line 239).  Every entry of
an offset row is `≥ -1`, so folding from `-1` computes the row maximum. -/
def rowMaxVal (row : List ℤ) : ℤ :=
  row.foldl max (-1)

/-- The sentinel remap `jnp.where(kv_block_offset == padding, max, offset)`
(lines 238-240). -/
def remapRow (row : List ℤ) : List ℤ :=
  row.map (fun e => if e = -1 then rowMaxVal row else e)

/-- Entry `row[idx]` read by the kernel block index maps (reads past the row
width never occur in the theorems below; they default to the sentinel). -/
def entryAt (l : List ℤ) (i : ℕ) : ℤ :=
  l.getD i (-1)

/-- State of one grid lane across the sequential block-scan dimension: the
accumulator scratch, the lane's output buffer slice (whose pre-call contents
are arbitrary), and a counter of how many times the kernel wrote `o_ref`. -/
structure LaneState where
  acc : Acc
  out : ℕ → ℝ
  writes : ℕ

/-- One step of `_tpu_decoding_kernel` at scan index `idx`:
`init` runs when `idx == 0`; `compute` runs when
`idx < kv_block_offset_size[b]`, on the KV block found at `offsets[idx]`;
`final` writes `o_scratch / l_i` to `o_ref` when `idx == size - 1`, where the
comparison is exact integer arithmetic (for `size = 0` it never holds). -/
noncomputable def laneStep (logit : ℕ → Logit) (v : ℕ → ℕ → ℝ) (bk : ℕ)
    (offsets : List ℤ) (size : ℕ) (st : LaneState) (idx : ℕ) : LaneState :=
  let acc0 := if idx = 0 then initAcc else st.acc
  let acc1 :=
    if idx < size then computeBlock logit v bk ((entryAt offsets idx).toNat * bk) acc0
    else acc0
  if (idx : ℤ) = (size : ℤ) - 1 then
    { acc := acc1, out := fun i => acc1.o i / acc1.l, writes := st.writes + 1 }
  else
    { acc := acc1, out := st.out, writes := st.writes }

/-- The whole sequential scan of one grid lane: scan indices `0, …, grid - 1`
in increasing order, where `grid = kv_block_offset_size.max()` over the batch
(line 293). -/
noncomputable def runLane (logit : ℕ → Logit) (v : ℕ → ℕ → ℝ) (bk : ℕ)
    (offsets : List ℤ) (size grid : ℕ) (st : LaneState) : LaneState :=
  (List.range grid).foldl (laneStep logit v bk offsets size) st

/-- Whether key position `j` may be attended: its absolute position is below
the true KV length (`block_kv_indices < kv_seq_len`, line 107) and the mask
function accepts it at the absolute query position `kv_seq_len - 1`
(line 109). -/
def attends (mask : ℕ → ℕ → Bool) (kvLen j : ℕ) : Bool :=
  decide (j < kvLen) && mask (kvLen - 1) j

/-- The raw (pre-mask) logit of key position `j` for one query row: the
softmax scale is applied to the `q·k` dot product before the explicit dense
bias is added (lines 98-103). -/
noncomputable def rawLogit (d : ℕ) (scale : ℝ) (q : ℕ → ℝ) (k : ℕ → ℕ → ℝ)
    (bias : ℕ → ℝ) (j : ℕ) : ℝ :=
  scale * (∑ i ∈ Finset.range d, q i * k j i) + bias j

/-- The masked logit `jnp.where(kv_mask, qk, NEG_INF)` (line 110) of key
position `j`. -/
noncomputable def maskedLogit (mask : ℕ → ℕ → Bool) (kvLen d : ℕ) (scale : ℝ)
    (q : ℕ → ℝ) (k : ℕ → ℕ → ℝ) (bias : ℕ → ℝ) (j : ℕ) : Logit :=
  if attends mask kvLen j then ((rawLogit d scale q k bias j : ℝ) : Logit) else ⊥

/-- Unnormalized dense reference softmax weight of key position `j`:
`exp (scale·q·kᵀ + bias)` on unmasked positions, `0` on masked ones. -/
noncomputable def refWeight (mask : ℕ → ℕ → Bool) (kvLen d : ℕ) (scale : ℝ)
    (q : ℕ → ℝ) (k : ℕ → ℕ → ℝ) (bias : ℕ → ℝ) (j : ℕ) : ℝ :=
  if attends mask kvLen j then Real.exp (rawLogit d scale q k bias j) else 0

/-- Dense reference attention `softmax(scale·QK^T + bias, masked) · V` over
the full unblocked padded KV sequence, for one query row. -/
noncomputable def denseRef (mask : ℕ → ℕ → Bool) (kvLen padded d : ℕ) (scale : ℝ)
    (q : ℕ → ℝ) (k v : ℕ → ℕ → ℝ) (bias : ℕ → ℝ) (i : ℕ) : ℝ :=
  (∑ j ∈ Finset.range padded, refWeight mask kvLen d scale q k bias j * v j i)
    / (∑ j ∈ Finset.range padded, refWeight mask kvLen d scale q k bias j)

/-- Modelled from the spec: the reference attention with a `logit_sink` term
(§6, P7): the sink adds `exp sink` to the softmax denominator only and
contributes nothing to the weighted value sum. -/
noncomputable def denseRefWithSink (sink : ℝ) (mask : ℕ → ℕ → Bool)
    (kvLen padded d : ℕ) (scale : ℝ) (q : ℕ → ℝ) (k v : ℕ → ℕ → ℝ)
    (bias : ℕ → ℝ) (i : ℕ) : ℝ :=
  (∑ j ∈ Finset.range padded, refWeight mask kvLen d scale q k bias j * v j i)
    / ((∑ j ∈ Finset.range padded, refWeight mask kvLen d scale q k bias j) + Real.exp sink)

/-- The full decode path of one grid lane, as launched by
`TPUDecoding.__call__`: build the offset row and its valid count, remap the
sentinels, run the lane over the scan grid, and return the lane's output
buffer slice (whose pre-call contents are `out0`). -/
noncomputable def laneOutput (mask : ℕ → ℕ → Bool) (nb bs kvLen d : ℕ) (scale : ℝ)
    (q : ℕ → ℝ) (k v : ℕ → ℕ → ℝ) (bias : ℕ → ℝ) (grid : ℕ) (out0 : ℕ → ℝ) :
    ℕ → ℝ :=
  let row := offsetRow mask nb bs kvLen
  (runLane (maskedLogit mask kvLen d scale q k bias) v bs (remapRow row)
    (kv_block_offset_size row bs kvLen) grid
    { acc := initAcc, out := out0, writes := 0 }).out

/-- The mask component recovered by `split(bias, MaskFnAttentionBias)`: its
mask function and (optionally) the last target position
`target_positions[:, -1]` of the batch element.  The true KV length is
`targetPosition + 1` (line 176). -/
structure MaskBias where
  maskFn : ℕ → ℕ → Bool
  targetPosition : Option ℕ

/-- The driver `TPUDecoding.__call__` for one grid lane: raises (returns
`Except.error`) before any kernel work when the mask component or its
position metadata is missing (lines 171-176), otherwise derives the true KV
length and launches the kernel. -/
noncomputable def tpuDecodingDriver (mb : Option MaskBias) (nb bs d : ℕ)
    (scale : ℝ) (q : ℕ → ℝ) (k v : ℕ → ℕ → ℝ) (bias : ℕ → ℝ) (grid : ℕ)
    (out0 : ℕ → ℝ) : Except String (ℕ → ℝ) :=
  match mb with
  | none => Except.error "Cannot retrieve MaskFnAttentionBias or target_positions."
  | some m =>
    match m.targetPosition with
    | none => Except.error "Cannot retrieve MaskFnAttentionBias or target_positions."
    | some tp =>
      Except.ok (laneOutput m.maskFn nb bs (tp + 1) d scale q k v bias grid out0)

/-- Kinds of KV cache a caller may pass (`KVCache` is the supported one). -/
inductive KVCacheKind where
  | kvCache
  | pagedKVCache
deriving DecidableEq

/-- The support predicate `TPUDecoding.is_supported` (lines 146-163): false
when the KV cache type is not `KVCache`, or when the key sequence length is
not a multiple of the configured block size while also exceeding it.
Modelled from the spec: the `super().is_supported` call lives in
`axlearn/common/flash_attention/common.py` (not in this tree) and §4.4 of the
spec gives exactly these two rejection conditions, so the super call is
modelled as accepting. -/
def is_supported (kv_cache_type : Option KVCacheKind) (k_seq_len block_size : ℕ) : Bool :=
  decide (kv_cache_type = some KVCacheKind.kvCache)
    && !(decide (k_seq_len % block_size ≠ 0) && decide (block_size < k_seq_len))

/-- The sliding-window causal mask function
`and_masks(causal_mask, query_position - key_position <= w)` of
`axlearn.common.attention_bias`. -/
def sliding_window_causal_mask (w : ℕ) (qp kp : ℕ) : Bool :=
  decide (kp ≤ qp) && decide (qp - kp ≤ w)

/-- Modelled from the spec: the closed-form block map entry of
`build_sliding_window_mask` from `axlearn/common/flash_attention/common.py`
(not in this tree): block `(i, j)` is non-empty iff `j = i`, or `j < i` and
the closest pair (first query row of block `i`, last key of block `j`) is
within the window: `(i - j - 1) * bs + 1 ≤ w`.  O(1) per entry instead of the
O(bs²) brute-force scan (§4.1). -/
def build_sliding_window_mask_entry (w bs i j : ℕ) : Bool :=
  decide (j = i) || (decide (j < i) && decide ((i - j - 1) * bs + 1 ≤ w))

/-- The offset row the driver builds through the sliding-window closed form
(lines 216-219) instead of the brute-force block map. -/
def offsetRowSliding (w nb bs kvLen : ℕ) : List ℤ :=
  query_iterator_row
    ((List.range nb).filter
      (fun j => build_sliding_window_mask_entry w bs ((kvLen - 1) / bs) j)) nb

/-! ### Basic lemmas about kernel exponentials and running maxima -/

@[simp]
theorem expSub_bot_left (m : Logit) : expSub ⊥ m = 0 := rfl

@[simp]
theorem expSub_coe_coe (a b : ℝ) : expSub (a : Logit) (b : Logit) = Real.exp (a - b) := rfl

theorem expSub_bot_right (x : Logit) : expSub x ⊥ = 0 := by
  induction x using WithBot.recBotCoe with
  | bot => rfl
  | coe a => rfl

@[simp]
theorem eexp_bot : eexp ⊥ = 0 := rfl

@[simp]
theorem eexp_coe (a : ℝ) : eexp (a : Logit) = Real.exp a := rfl

/-- Key rescaling identity of the streaming softmax: for `x ≤ m ≤ m'`,
`exp(m - m') * exp(x - m) = exp(x - m')`, including the underflow cases. -/
theorem expSub_trans {x m m' : Logit} (hx : x ≤ m) (hm : m ≤ m') :
    expSub m m' * expSub x m = expSub x m' := by
  induction m using WithBot.recBotCoe with
  | bot =>
    have hxb : x = ⊥ := le_bot_iff.mp hx
    subst hxb
    simp [expSub_bot_right]
  | coe a =>
    induction m' using WithBot.recBotCoe with
    | bot => exact absurd hm (WithBot.not_coe_le_bot a)
    | coe b =>
      induction x using WithBot.recBotCoe with
      | bot => simp
      | coe c =>
        simp only [expSub_coe_coe, ← Real.exp_add]
        ring_nf

/-- Conversion between the running-max-shifted weight and the unnormalized
softmax weight: `exp(x - b) = exp x * exp (-b)`. -/
theorem expSub_coe_right (x : Logit) (b : ℝ) :
    expSub x (b : Logit) = eexp x * Real.exp (-b) := by
  induction x using WithBot.recBotCoe with
  | bot => simp
  | coe c =>
    simp only [expSub_coe_coe, eexp_coe, ← Real.exp_add]
    ring_nf

theorem le_supList_of_mem {logit : ℕ → Logit} {P : List ℕ} {j : ℕ} (h : j ∈ P) :
    logit j ≤ supList logit P := by
  induction P with
  | nil => cases h
  | cons a rest ih =>
    rcases List.mem_cons.mp h with h1 | h2
    · subst h1; exact le_max_left _ _
    · exact le_trans (ih h2) (le_max_right _ _)

theorem supList_append (logit : ℕ → Logit) (P Q : List ℕ) :
    supList logit (P ++ Q) = max (supList logit P) (supList logit Q) := by
  induction P with
  | nil => simp [supList]
  | cons a rest ih =>
    show max (logit a) (supList logit (rest ++ Q)) = _
    rw [ih, supList, max_assoc]

theorem posList_append (bk : ℕ) (L : List ℕ) (c : ℕ) :
    posList bk (L ++ [c]) = posList bk L ++ blockPositions bk (c * bk) := by
  induction L with
  | nil => simp [posList]
  | cons a rest ih => simp [posList, ih]

/-! ### The streaming-softmax invariant -/

/-- Invariant of the accumulator after scanning any list of KV blocks: `m` is
the running maximum of all visited logits, and `l` and `o` are the sums of the
`exp(logit - m)` weights (resp. weighted value rows) over all visited
positions. -/
theorem runBlocks_spec (logit : ℕ → Logit) (v : ℕ → ℕ → ℝ) (bk : ℕ) (L : List ℕ) :
    (runBlocks logit v bk L).m = supList logit (posList bk L)
    ∧ (runBlocks logit v bk L).l
        = ((posList bk L).map
            (fun j => expSub (logit j) (supList logit (posList bk L)))).sum
    ∧ ∀ i, (runBlocks logit v bk L).o i
        = ((posList bk L).map
            (fun j => expSub (logit j) (supList logit (posList bk L)) * v j i)).sum := by
  induction L using List.reverseRecOn with
  | nil => exact ⟨rfl, by simp [runBlocks, posList, initAcc], fun i => by simp [runBlocks, posList, initAcc]⟩
  | append_singleton L c ih =>
    obtain ⟨ihm, ihl, iho⟩ := ih
    have hrun : runBlocks logit v bk (L ++ [c])
        = computeBlock logit v bk (c * bk) (runBlocks logit v bk L) := by
      simp [runBlocks, List.foldl_append]
    have hpos := posList_append bk L c
    set P := posList bk L with hP
    set B := blockPositions bk (c * bk) with hB
    have hsup : supList logit (posList bk (L ++ [c]))
        = max (supList logit P) (supList logit B) := by
      rw [hpos, supList_append]
    have hmnext : max (runBlocks logit v bk L).m (blockMax logit (c * bk) bk)
        = supList logit (posList bk (L ++ [c])) := by
      rw [ihm, hsup, blockMax]
    have hle : supList logit P ≤ supList logit (P ++ B) := by
      rw [supList_append]; exact le_max_left _ _
    refine ⟨?_, ?_, ?_⟩
    · rw [hrun]
      show max (runBlocks logit v bk L).m (blockMax logit (c * bk) bk)
        = supList logit (posList bk (L ++ [c]))
      exact hmnext
    · rw [hrun]
      show expSub (runBlocks logit v bk L).m
            (max (runBlocks logit v bk L).m (blockMax logit (c * bk) bk))
            * (runBlocks logit v bk L).l
          + (B.map (fun j => expSub (logit j)
              (max (runBlocks logit v bk L).m (blockMax logit (c * bk) bk)))).sum
        = _
      rw [hmnext, ihl, ihm, hpos, List.map_append, List.sum_append]
      congr 1
      rw [← List.sum_map_mul_left]
      refine congrArg List.sum (List.map_congr_left ?_)
      intro j hj
      exact expSub_trans (le_supList_of_mem hj) hle
    · intro i
      rw [hrun]
      show expSub (runBlocks logit v bk L).m
            (max (runBlocks logit v bk L).m (blockMax logit (c * bk) bk))
            * (runBlocks logit v bk L).o i
          + (B.map (fun j => expSub (logit j)
              (max (runBlocks logit v bk L).m (blockMax logit (c * bk) bk)) * v j i)).sum
        = _
      rw [hmnext, iho i, ihm, hpos, List.map_append, List.sum_append]
      congr 1
      rw [← List.sum_map_mul_left]
      refine congrArg List.sum (List.map_congr_left ?_)
      intro j hj
      rw [← mul_assoc, expSub_trans (le_supList_of_mem hj) hle]

/-- Dividing the running-max-shifted sums recovers the plain softmax-weight
quotient: the common factor `exp(-m)` cancels (and if every visited position
is masked, both sides are `0 / 0 = 0`). -/
theorem quotient_conversion (logit : ℕ → Logit) (v : ℕ → ℕ → ℝ) (P : List ℕ) (i : ℕ) :
    (P.map (fun j => expSub (logit j) (supList logit P) * v j i)).sum
      / (P.map (fun j => expSub (logit j) (supList logit P))).sum
    = (P.map (fun j => eexp (logit j) * v j i)).sum
      / (P.map (fun j => eexp (logit j))).sum := by
  by_cases hbot : supList logit P = ⊥
  · have hall : ∀ j ∈ P, logit j = ⊥ := by
      intro j hj
      have : logit j ≤ supList logit P := le_supList_of_mem hj
      rw [hbot] at this
      exact le_bot_iff.mp this
    have h1 : (P.map (fun j => expSub (logit j) (supList logit P) * v j i)).sum = 0 := by
      rw [List.sum_eq_zero]
      intro x hx
      obtain ⟨j, hj, rfl⟩ := List.mem_map.mp hx
      rw [hall j hj]
      simp
    have h2 : (P.map (fun j => eexp (logit j) * v j i)).sum = 0 := by
      rw [List.sum_eq_zero]
      intro x hx
      obtain ⟨j, hj, rfl⟩ := List.mem_map.mp hx
      rw [hall j hj]
      simp
    rw [h1, h2, zero_div, zero_div]
  · obtain ⟨Mv, hS⟩ : ∃ Mv : ℝ, supList logit P = (Mv : Logit) := by
      rcases WithBot.ne_bot_iff_exists.mp hbot with ⟨a, ha⟩
      exact ⟨a, ha.symm⟩
    have hnum : (P.map (fun j => expSub (logit j) (supList logit P) * v j i)).sum
        = Real.exp (-Mv) * (P.map (fun j => eexp (logit j) * v j i)).sum := by
      rw [← List.sum_map_mul_left]
      refine congrArg List.sum (List.map_congr_left ?_)
      intro j hj
      rw [hS, expSub_coe_right]
      ring
    have hden : (P.map (fun j => expSub (logit j) (supList logit P))).sum
        = Real.exp (-Mv) * (P.map (fun j => eexp (logit j))).sum := by
      rw [← List.sum_map_mul_left]
      refine congrArg List.sum (List.map_congr_left ?_)
      intro j hj
      rw [hS, expSub_coe_right]
      ring
    rw [hnum, hden, mul_div_mul_left _ _ (Real.exp_ne_zero _)]

/-! ### Lane-scan loop lemmas -/

/-- A scan step at an index at or beyond the lane's valid-block count is a
complete no-op (when the count is at least one, so initialization at index 0
is also past). -/
theorem laneStep_noop (logit : ℕ → Logit) (v : ℕ → ℕ → ℝ) (bk : ℕ)
    (offsets : List ℤ) (size : ℕ) (st : LaneState) (idx : ℕ)
    (h1 : 1 ≤ size) (h2 : size ≤ idx) :
    laneStep logit v bk offsets size st idx = st := by
  have hidx0 : idx ≠ 0 := by omega
  have hlt : ¬ idx < size := by omega
  have hfin : ¬ ((idx : ℤ) = (size : ℤ) - 1) := by
    intro h
    omega
  simp only [laneStep, if_neg hidx0, if_neg hlt, if_neg hfin]

/-- A scan step with a zero valid-block count never touches the output buffer
or the write counter (only `init` may run). -/
theorem laneStep_size_zero (logit : ℕ → Logit) (v : ℕ → ℕ → ℝ) (bk : ℕ)
    (offsets : List ℤ) (st : LaneState) (idx : ℕ) :
    (laneStep logit v bk offsets 0 st idx).out = st.out
    ∧ (laneStep logit v bk offsets 0 st idx).writes = st.writes := by
  have hlt : ¬ idx < 0 := by omega
  have hfin : ¬ ((idx : ℤ) = (((0 : ℕ) : ℤ)) - 1) := by
    intro h
    rw [Nat.cast_zero] at h
    omega
  constructor <;> simp only [laneStep, if_neg hlt, if_neg hfin]

/-- A lane whose valid-block count is zero leaves the output buffer and write
counter untouched over the whole scan grid. -/
theorem runLane_size_zero (logit : ℕ → Logit) (v : ℕ → ℕ → ℝ) (bk : ℕ)
    (offsets : List ℤ) (grid : ℕ) (st : LaneState) :
    (runLane logit v bk offsets 0 grid st).out = st.out
    ∧ (runLane logit v bk offsets 0 grid st).writes = st.writes := by
  induction grid with
  | zero => exact ⟨rfl, rfl⟩
  | succ g ih =>
    have hsplit : runLane logit v bk offsets 0 (g + 1) st
        = laneStep logit v bk offsets 0 (runLane logit v bk offsets 0 g st) g := by
      simp [runLane, List.range_succ, List.foldl_append]
    rw [hsplit]
    obtain ⟨ho, hw⟩ := laneStep_size_zero logit v bk offsets (runLane logit v bk offsets 0 g st) g
    exact ⟨ho.trans ih.1, hw.trans ih.2⟩

/-- The output write happens at exactly the scan indices `idx` with
`idx = size - 1` (in exact integer arithmetic). -/
theorem laneStep_writes (logit : ℕ → Logit) (v : ℕ → ℕ → ℝ) (bk : ℕ)
    (offsets : List ℤ) (size : ℕ) (st : LaneState) (idx : ℕ) :
    (laneStep logit v bk offsets size st idx).writes ≠ st.writes
      ↔ (idx : ℤ) = (size : ℤ) - 1 := by
  by_cases h : (idx : ℤ) = (size : ℤ) - 1
  · simp only [laneStep, if_pos h]
    exact ⟨fun _ => h, fun _ => Nat.succ_ne_self st.writes⟩
  · simp only [laneStep, if_neg h]
    exact ⟨fun hc => absurd rfl hc, fun hc => absurd hc h⟩

/-- Over the whole scan grid, a lane with `1 ≤ size ≤ grid` writes its output
exactly once (and a lane with `size = 0` or a grid too short never writes). -/
theorem runLane_writes (logit : ℕ → Logit) (v : ℕ → ℕ → ℝ) (bk : ℕ)
    (offsets : List ℤ) (size : ℕ) (grid : ℕ) (st : LaneState) :
    (runLane logit v bk offsets size grid st).writes
      = st.writes + (if 1 ≤ size ∧ size ≤ grid then 1 else 0) := by
  induction grid with
  | zero =>
    have hno : ¬ (1 ≤ size ∧ size ≤ 0) := by omega
    rw [if_neg hno]
    simp [runLane]
  | succ g ih =>
    have hsplit : runLane logit v bk offsets size (g + 1) st
        = laneStep logit v bk offsets size (runLane logit v bk offsets size g st) g := by
      simp [runLane, List.range_succ, List.foldl_append]
    rw [hsplit]
    by_cases h : (g : ℤ) = (size : ℤ) - 1
    · have hsz : size = g + 1 := by omega
      have hnot : ¬ (1 ≤ size ∧ size ≤ g) := by omega
      have hyes : 1 ≤ size ∧ size ≤ g + 1 := by omega
      simp only [laneStep, if_pos h, ih, if_neg hnot, if_pos hyes]
    · have hiff : (1 ≤ size ∧ size ≤ g + 1) ↔ (1 ≤ size ∧ size ≤ g) := by omega
      simp only [laneStep, if_neg h, ih, hiff]

theorem runBlocks_take_succ (logit : ℕ → Logit) (v : ℕ → ℕ → ℝ) (bk : ℕ)
    (B : List ℕ) (t : ℕ) (ht : t < B.length) :
    runBlocks logit v bk (B.take (t + 1))
      = computeBlock logit v bk (B.getD t 0 * bk) (runBlocks logit v bk (B.take t)) := by
  have hconcat : B.take t ++ [B[t]] = B.take (t + 1) := by
    rw [← List.concat_eq_append]
    exact List.take_concat_get B t ht
  simp only [runBlocks]
  rw [List.getD_eq_getElem B 0 ht, ← hconcat, List.foldl_append]
  rfl

/-- Main loop characterization: with a positive valid-block count whose block
indices are read off the offset row, after `t ≤ size` scan steps the
accumulator equals the streaming scan of the first `t` valid blocks, and the
output buffer is written (with the normalized accumulator over all valid
blocks) exactly at the step of index `size - 1`. -/
theorem runLane_loop (logit : ℕ → Logit) (v : ℕ → ℕ → ℝ) (bk : ℕ)
    (offsets : List ℤ) (B : List ℕ) (size : ℕ) (st0 : LaneState)
    (hsize : B.length = size) (h1 : 1 ≤ size)
    (hoff : ∀ t, t < size → (entryAt offsets t).toNat = B.getD t 0) :
    ∀ t, t ≤ size →
      (List.range t).foldl (laneStep logit v bk offsets size) st0
        = { acc := if t = 0 then st0.acc else runBlocks logit v bk (B.take t)
          , out := if t = size then
                (fun i => (runBlocks logit v bk B).o i / (runBlocks logit v bk B).l)
              else st0.out
          , writes := if t = size then st0.writes + 1 else st0.writes } := by
  intro t
  induction t with
  | zero =>
    intro _
    have h0 : (0 : ℕ) ≠ size := by omega
    simp [if_neg h0]
  | succ u ih =>
    intro hu
    have hu' : u ≤ size := by omega
    have husz : u < size := by omega
    have hsplit : (List.range (u + 1)).foldl (laneStep logit v bk offsets size) st0
        = laneStep logit v bk offsets size
            ((List.range u).foldl (laneStep logit v bk offsets size) st0) u := by
      rw [List.range_succ, List.foldl_append]
      rfl
    rw [hsplit, ih hu']
    have hune : u ≠ size := by omega
    have hcompute : computeBlock logit v bk ((entryAt offsets u).toNat * bk)
          (if u = 0 then initAcc else
            (if u = 0 then st0.acc else runBlocks logit v bk (B.take u)))
        = runBlocks logit v bk (B.take (u + 1)) := by
      by_cases hu0 : u = 0
      · subst hu0
        rw [hoff 0 husz, runBlocks_take_succ logit v bk B 0 (by omega)]
        simp [runBlocks]
      · rw [hoff u husz, runBlocks_take_succ logit v bk B u (by omega)]
        simp [hu0]
    by_cases hfin : u + 1 = size
    · have hfin' : ((u : ℤ)) = ((size : ℤ)) - 1 := by omega
      have htk : B.take (u + 1) = B := by
        rw [hfin, ← hsize]
        exact List.take_length B
      simp only [laneStep, if_pos hfin', if_neg hune, if_pos husz, hcompute, htk,
        if_pos hfin]
      have hu1 : u + 1 ≠ 0 := by omega
      simp [if_neg hu1]
    · have hfin' : ¬ ((u : ℤ)) = ((size : ℤ)) - 1 := by omega
      have hu1 : u + 1 ≠ 0 := by omega
      simp only [laneStep, if_neg hfin', if_neg hune, if_pos husz, hcompute,
        if_neg hfin, if_neg hu1]

/-- The full lane scan on a grid at least as long as the valid-block count:
the final output is the normalized streaming scan of all valid blocks. -/
theorem runLane_out (logit : ℕ → Logit) (v : ℕ → ℕ → ℝ) (bk : ℕ)
    (offsets : List ℤ) (B : List ℕ) (size grid : ℕ) (st0 : LaneState)
    (hsize : B.length = size) (h1 : 1 ≤ size) (hg : size ≤ grid)
    (hoff : ∀ t, t < size → (entryAt offsets t).toNat = B.getD t 0) :
    (runLane logit v bk offsets size grid st0).out
      = fun i => (runBlocks logit v bk B).o i / (runBlocks logit v bk B).l := by
  induction grid, hg using Nat.le_induction with
  | base =>
    have := runLane_loop logit v bk offsets B size st0 hsize h1 hoff size le_rfl
    rw [runLane, this]
    simp
  | succ g hg ih =>
    have hsplit : runLane logit v bk offsets size (g + 1) st0
        = laneStep logit v bk offsets size (runLane logit v bk offsets size g st0) g := by
      simp [runLane, List.range_succ, List.foldl_append]
    rw [hsplit, laneStep_noop logit v bk offsets size _ g h1 hg, ih]

/-! ### Offset-table lemmas -/

/-- On a strictly increasing list, filtering by a downward-closed predicate
keeps exactly an initial segment. -/
theorem filter_antitone_eq_takeWhile (q : ℕ → Bool) :
    ∀ (l : List ℕ), l.Pairwise (· < ·) →
      (∀ a b : ℕ, a ≤ b → q b = true → q a = true) →
      l.filter q = l.takeWhile q := by
  intro l
  induction l with
  | nil => intro _ _; rfl
  | cons x xs ih =>
    intro hp hq
    rcases List.pairwise_cons.mp hp with ⟨hx, hxs⟩
    by_cases hqx : q x = true
    · rw [List.filter_cons_of_pos hqx, List.takeWhile_cons_of_pos hqx, ih hxs hq]
    · have hqx' : q x = false := by
        cases h : q x
        · rfl
        · exact absurd h hqx
      rw [List.filter_cons_of_neg (by simp [hqx']), List.takeWhile_cons_of_neg (by simp [hqx'])]
      rw [List.filter_eq_nil]
      intro a ha hqa
      exact hqx (hq x a (le_of_lt (hx a ha)) hqa)

theorem validBlockList_pairwise (mask : ℕ → ℕ → Bool) (nb bs r : ℕ) :
    (validBlockList mask nb bs r).Pairwise (· < ·) :=
  List.Pairwise.filter _ (List.pairwise_lt_range nb)

/-- The valid-block count of an offset row equals the number of non-empty
blocks whose start lies below the true KV length. -/
theorem kv_size_eq (A : List ℕ) (nb bs kvLen : ℕ) :
    kv_block_offset_size (query_iterator_row A nb) bs kvLen
      = (A.filter (fun j => decide (j * bs < kvLen))).length := by
  have hpt : ∀ j : ℕ,
      (decide (((j : ℕ) : ℤ) ≠ -1) && decide (((j : ℕ) : ℤ) * (bs : ℤ) < (kvLen : ℤ)))
        = decide (j * bs < kvLen) := by
    intro j
    have h1 : ((j : ℕ) : ℤ) ≠ -1 := by omega
    have h2 : (((j : ℕ) : ℤ) * (bs : ℤ) < (kvLen : ℤ)) ↔ j * bs < kvLen := by
      constructor
      · intro h
        exact_mod_cast h
      · intro h
        exact_mod_cast h
    simp [h1, h2]
  unfold kv_block_offset_size query_iterator_row
  rw [List.countP_append]
  have hrep : (List.replicate (nb - A.length) (-1 : ℤ)).countP
      (fun e => decide (e ≠ -1) && decide (e * (bs : ℤ) < (kvLen : ℤ))) = 0 := by
    rw [List.countP_eq_zero]
    intro a ha
    rw [List.eq_of_mem_replicate ha]
    simp
  rw [hrep, List.countP_map, Nat.add_zero, ← List.countP_eq_length_filter]
  exact List.countP_congr (fun j _ => by rw [Function.comp_apply, hpt j])

theorem getD_append_left_int :
    ∀ (l₁ l₂ : List ℤ) (n : ℕ), n < l₁.length → (l₁ ++ l₂).getD n (-1) = l₁.getD n (-1) := by
  intro l₁
  induction l₁ with
  | nil =>
    intro l₂ n h
    simp at h
  | cons x xs ih =>
    intro l₂ n h
    cases n with
    | zero => rfl
    | succ m =>
      have : m < xs.length := by simpa using h
      exact ih l₂ m this

theorem getD_append_left_nat :
    ∀ (l₁ l₂ : List ℕ) (n : ℕ), n < l₁.length → (l₁ ++ l₂).getD n 0 = l₁.getD n 0 := by
  intro l₁
  induction l₁ with
  | nil =>
    intro l₂ n h
    simp at h
  | cons x xs ih =>
    intro l₂ n h
    cases n with
    | zero => rfl
    | succ m =>
      have : m < xs.length := by simpa using h
      exact ih l₂ m this

theorem getD_map_coe :
    ∀ (A : List ℕ) (n : ℕ), n < A.length →
      (A.map (fun j => ((j : ℕ) : ℤ))).getD n (-1) = ((A.getD n 0 : ℕ) : ℤ) := by
  intro A
  induction A with
  | nil =>
    intro n h
    simp at h
  | cons x xs ih =>
    intro n h
    cases n with
    | zero => rfl
    | succ m =>
      have : m < xs.length := by simpa using h
      exact ih m this

theorem getD_map_int (f : ℤ → ℤ) :
    ∀ (l : List ℤ) (n : ℕ), n < l.length → (l.map f).getD n (-1) = f (l.getD n (-1)) := by
  intro l
  induction l with
  | nil =>
    intro n h
    simp at h
  | cons x xs ih =>
    intro n h
    cases n with
    | zero => rfl
    | succ m =>
      have : m < xs.length := by simpa using h
      exact ih m this

/-- Every entry the kernel dereferences at a scan index below the valid-block
count is the corresponding valid block index (the sentinel remap does not
touch these entries). -/
theorem offsetRow_entries (A : List ℕ) (nb : ℕ)
    (q : ℕ → Bool) (B : List ℕ)
    (hA : A = B ++ A.dropWhile q) (hlen : A.length ≤ nb) :
    ∀ t, t < B.length →
      (entryAt (remapRow (query_iterator_row A nb)) t).toNat = B.getD t 0 := by
  intro t ht
  have hBlen : B.length ≤ A.length := by
    conv_rhs => rw [hA]
    simp only [List.length_append]
    omega
  have htA : t < A.length := lt_of_lt_of_le ht hBlen
  have hAD : A.getD t 0 = B.getD t 0 := by
    conv_lhs => rw [hA]
    exact getD_append_left_nat B (A.dropWhile q) t ht
  have hmaplen : t < (A.map (fun j => ((j : ℕ) : ℤ))).length := by
    rw [List.length_map]
    exact htA
  have hrowlen : (query_iterator_row A nb).length = A.length + (nb - A.length) := by
    unfold query_iterator_row
    rw [List.length_append, List.length_map, List.length_replicate]
  have htrow : t < (query_iterator_row A nb).length := by omega
  have hrowD : (query_iterator_row A nb).getD t (-1) = ((A.getD t 0 : ℕ) : ℤ) := by
    unfold query_iterator_row
    rw [getD_append_left_int _ _ t hmaplen]
    exact getD_map_coe A t htA
  have hne : ((A.getD t 0 : ℕ) : ℤ) ≠ -1 := by omega
  have hfinal : entryAt (remapRow (query_iterator_row A nb)) t = ((A.getD t 0 : ℕ) : ℤ) := by
    unfold entryAt remapRow
    rw [getD_map_int _ _ t htrow, hrowD, if_neg hne]
  rw [hfinal, hAD]
  exact Int.toNat_natCast _

/-! ### Summation bookkeeping: visited blocks versus the full padded sequence -/

theorem sum_range_list (f : ℕ → ℝ) (n : ℕ) :
    ((List.range n).map f).sum = ∑ j ∈ Finset.range n, f j := by
  induction n with
  | zero => simp
  | succ m ih =>
    rw [List.range_succ, List.map_append, List.sum_append, Finset.sum_range_succ, ih]
    simp

theorem sum_range_mul (f : ℕ → ℝ) (nb bs : ℕ) :
    ∑ j ∈ Finset.range (nb * bs), f j
      = ∑ c ∈ Finset.range nb, ∑ t ∈ Finset.range bs, f (c * bs + t) := by
  induction nb with
  | zero => simp
  | succ m ih =>
    rw [Nat.succ_mul, Finset.sum_range_add, ih, Finset.sum_range_succ]

theorem sum_posList (f : ℕ → ℝ) (bs : ℕ) (L : List ℕ) :
    ((posList bs L).map f).sum
      = (L.map (fun c => ∑ t ∈ Finset.range bs, f (c * bs + t))).sum := by
  induction L with
  | nil => simp [posList]
  | cons c rest ih =>
    simp only [posList, List.map_append, List.sum_append, List.map_cons, List.sum_cons, ih]
    congr 1
    rw [blockPositions, List.map_map, sum_range_list]
    rfl

/-- Reindexing the positions of a duplicate-free list of in-range blocks as
the full padded range, when the summand vanishes on every skipped block. -/
theorem sum_posList_eq_range (f : ℕ → ℝ) (nb bs : ℕ) (L : List ℕ)
    (hnodup : L.Nodup) (hsub : ∀ c ∈ L, c < nb)
    (hz : ∀ c, c < nb → c ∉ L → ∀ t, t < bs → f (c * bs + t) = 0) :
    ((posList bs L).map f).sum = ∑ j ∈ Finset.range (nb * bs), f j := by
  rw [sum_posList, sum_range_mul]
  rw [← List.sum_toFinset _ hnodup]
  refine Finset.sum_subset ?_ ?_
  · intro c hc
    exact Finset.mem_range.mpr (hsub c (List.mem_toFinset.mp hc))
  · intro c hc hcn
    refine Finset.sum_eq_zero ?_
    intro t ht
    exact hz c (Finset.mem_range.mp hc) (fun hm => hcn (List.mem_toFinset.mpr hm))
      t (Finset.mem_range.mp ht)

theorem eexp_maskedLogit (mask : ℕ → ℕ → Bool) (kvLen d : ℕ) (scale : ℝ)
    (q : ℕ → ℝ) (k : ℕ → ℕ → ℝ) (bias : ℕ → ℝ) (j : ℕ) :
    eexp (maskedLogit mask kvLen d scale q k bias j)
      = refWeight mask kvLen d scale q k bias j := by
  unfold maskedLogit refWeight
  by_cases h : attends mask kvLen j = true
  · rw [if_pos h, if_pos h]
    exact eexp_coe _
  · rw [if_neg h, if_neg h]
    exact eexp_bot

/-! ### End-to-end correctness of one lane of the decode path -/

/-- The decode path of one grid lane computes the dense reference attention
over the full unblocked padded KV sequence, provided the block size is
positive and divides the padded length, the true KV length is in range, and
the query row attends to at least one real key position. -/
theorem laneOutput_correct (mask : ℕ → ℕ → Bool) (nb bs d kvLen : ℕ) (scale : ℝ)
    (q : ℕ → ℝ) (k v : ℕ → ℕ → ℝ) (bias : ℕ → ℝ) (grid : ℕ) (out0 : ℕ → ℝ)
    (hbs : 1 ≤ bs) (hkv1 : 1 ≤ kvLen) (hlen : kvLen ≤ nb * bs)
    (hsupp : ∃ j, j < kvLen ∧ mask (kvLen - 1) j = true)
    (hgrid : kv_block_offset_size (offsetRow mask nb bs kvLen) bs kvLen ≤ grid) :
    laneOutput mask nb bs kvLen d scale q k v bias grid out0
      = denseRef mask kvLen (nb * bs) d scale q k v bias := by
  classical
  obtain ⟨j0, hj0kv, hj0m⟩ := hsupp
  set r := (kvLen - 1) / bs with hr
  set A := validBlockList mask nb bs r with hAdef
  set qpred : ℕ → Bool := fun j => decide (j * bs < kvLen) with hqpred
  set B := A.filter qpred with hBdef
  have hq_anti : ∀ a b : ℕ, a ≤ b → qpred b = true → qpred a = true := by
    intro a b hab hb
    rw [hqpred] at hb ⊢
    rw [decide_eq_true_iff] at hb ⊢
    exact lt_of_le_of_lt (Nat.mul_le_mul_right bs hab) hb
  have hBtw : B = A.takeWhile qpred := by
    rw [hBdef]
    exact filter_antitone_eq_takeWhile qpred A (validBlockList_pairwise mask nb bs r) hq_anti
  have hA_split : A = B ++ A.dropWhile qpred := by
    rw [hBtw]
    exact (List.takeWhile_append_dropWhile qpred A).symm
  have hrow : offsetRow mask nb bs kvLen = query_iterator_row A nb := rfl
  have hsize : kv_block_offset_size (offsetRow mask nb bs kvLen) bs kvLen = B.length := by
    rw [hrow, kv_size_eq, hBdef]
  have hAlen : A.length ≤ nb := by
    rw [hAdef]
    unfold validBlockList
    exact le_trans (List.length_filter_le _ _) (le_of_eq (List.length_range nb))
  have hoff : ∀ t, t < B.length →
      (entryAt (remapRow (offsetRow mask nb bs kvLen)) t).toNat = B.getD t 0 := by
    rw [hrow]
    exact offsetRow_entries A nb qpred B hA_split hAlen
  have hmemB : ∀ c : ℕ, c ∈ B ↔
      (c < nb ∧ build_mask_entry mask bs bs r c = true ∧ c * bs < kvLen) := by
    intro c
    rw [hBdef, List.mem_filter, hAdef]
    unfold validBlockList
    rw [List.mem_filter, List.mem_range, hqpred]
    simp only [decide_eq_true_iff]
    tauto
  -- the support witness pins down a non-empty visited block
  have hb0bs : (j0 / bs) * bs ≤ j0 := Nat.div_mul_le_self j0 bs
  have hb0nb : j0 / bs < nb := by
    rw [Nat.div_lt_iff_lt_mul (by omega)]
    calc j0 < kvLen := hj0kv
    _ ≤ nb * bs := hlen
  have hentry_b0 : build_mask_entry mask bs bs r (j0 / bs) = true := by
    unfold build_mask_entry
    rw [List.any_eq_true]
    refine ⟨(kvLen - 1) % bs, List.mem_range.mpr (Nat.mod_lt _ (by omega)), ?_⟩
    rw [List.any_eq_true]
    refine ⟨j0 % bs, List.mem_range.mpr (Nat.mod_lt _ (by omega)), ?_⟩
    have h1 : r * bs + (kvLen - 1) % bs = kvLen - 1 := by
      rw [hr, Nat.mul_comm]
      exact Nat.div_add_mod (kvLen - 1) bs
    have h2 : (j0 / bs) * bs + j0 % bs = j0 := by
      rw [Nat.mul_comm]
      exact Nat.div_add_mod j0 bs
    rw [h1, h2]
    exact hj0m
  have hb0B : j0 / bs ∈ B := by
    rw [hmemB]
    exact ⟨hb0nb, hentry_b0, by omega⟩
  have hB1 : 1 ≤ B.length := List.length_pos_of_mem hb0B
  -- run the lane
  have hout : laneOutput mask nb bs kvLen d scale q k v bias grid out0
      = fun i => (runBlocks (maskedLogit mask kvLen d scale q k bias) v bs B).o i
          / (runBlocks (maskedLogit mask kvLen d scale q k bias) v bs B).l := by
    unfold laneOutput
    exact runLane_out (maskedLogit mask kvLen d scale q k bias) v bs
      (remapRow (offsetRow mask nb bs kvLen)) B
      (kv_block_offset_size (offsetRow mask nb bs kvLen) bs kvLen) grid
      { acc := initAcc, out := out0, writes := 0 }
      hsize.symm (by omega) hgrid (fun t ht => hoff t (by omega))
  rw [hout]
  funext i
  obtain ⟨hm, hl, ho⟩ := runBlocks_spec (maskedLogit mask kvLen d scale q k bias) v bs B
  rw [ho i, hl, quotient_conversion]
  -- convert streaming weights to reference weights
  have hwnum : ((posList bs B).map
        (fun j => eexp (maskedLogit mask kvLen d scale q k bias j) * v j i)).sum
      = ((posList bs B).map
        (fun j => refWeight mask kvLen d scale q k bias j * v j i)).sum := by
    refine congrArg List.sum (List.map_congr_left ?_)
    intro j _
    rw [eexp_maskedLogit]
  have hwden : ((posList bs B).map
        (fun j => eexp (maskedLogit mask kvLen d scale q k bias j))).sum
      = ((posList bs B).map (fun j => refWeight mask kvLen d scale q k bias j)).sum := by
    refine congrArg List.sum (List.map_congr_left ?_)
    intro j _
    rw [eexp_maskedLogit]
  rw [hwnum, hwden]
  -- vanishing on skipped blocks
  have hnodupB : B.Nodup := by
    rw [hBdef, hAdef]
    unfold validBlockList
    exact (((List.nodup_range nb).filter _).filter _)
  have hsubB : ∀ c ∈ B, c < nb := fun c hc => ((hmemB c).mp hc).1
  have hvanish : ∀ c, c < nb → c ∉ B → ∀ t, t < bs →
      refWeight mask kvLen d scale q k bias (c * bs + t) = 0 := by
    intro c hcnb hcB t htbs
    unfold refWeight
    rw [if_neg]
    intro hatt
    unfold attends at hatt
    rw [Bool.and_eq_true, decide_eq_true_iff] at hatt
    obtain ⟨hlt, hmask⟩ := hatt
    refine hcB ((hmemB c).mpr ⟨hcnb, ?_, by omega⟩)
    unfold build_mask_entry
    rw [List.any_eq_true]
    refine ⟨(kvLen - 1) % bs, List.mem_range.mpr (Nat.mod_lt _ (by omega)), ?_⟩
    rw [List.any_eq_true]
    refine ⟨t, List.mem_range.mpr htbs, ?_⟩
    have h1 : r * bs + (kvLen - 1) % bs = kvLen - 1 := by
      rw [hr, Nat.mul_comm]
      exact Nat.div_add_mod (kvLen - 1) bs
    rw [h1]
    exact hmask
  rw [sum_posList_eq_range _ nb bs B hnodupB hsubB
      (fun c hc hcn t ht => by rw [hvanish c hc hcn t ht, zero_mul]),
    sum_posList_eq_range _ nb bs B hnodupB hsubB hvanish]
  rfl

/-! ### Remaining small helpers -/

theorem bool_eq_of_iff {a b : Bool} (h : a = true ↔ b = true) : a = b := by
  cases a <;> cases b <;> simp_all

theorem le_foldl_max : ∀ (l : List ℤ) (a : ℤ), a ≤ l.foldl max a := by
  intro l
  induction l with
  | nil => intro a; exact le_rfl
  | cons x xs ih =>
    intro a
    exact le_trans (le_max_left a x) (ih (max a x))

theorem foldl_max_le_of_mem : ∀ (l : List ℤ) (a x : ℤ), x ∈ l → x ≤ l.foldl max a := by
  intro l
  induction l with
  | nil =>
    intro a x hx
    cases hx
  | cons y ys ih =>
    intro a x hx
    rcases List.mem_cons.mp hx with rfl | hmem
    · exact le_trans (le_max_right a x) (le_foldl_max ys (max a x))
    · exact ih (max a y) x hmem

theorem foldl_max_mem : ∀ (l : List ℤ) (a : ℤ), l.foldl max a = a ∨ l.foldl max a ∈ l := by
  intro l
  induction l with
  | nil => intro a; exact Or.inl rfl
  | cons y ys ih =>
    intro a
    rcases ih (max a y) with h | h
    · rcases max_choice a y with hm | hm
      · exact Or.inl (by rw [List.foldl_cons, h, hm])
      · exact Or.inr (by rw [List.foldl_cons, h, hm]; exact List.mem_cons_self y ys)
    · exact Or.inr (List.mem_cons_of_mem y h)

/-! ### Claims -/

/-- Claim C2: the streaming softmax accumulator update for each block computes
`m_next = max(m_prev, rowmax(logits))`, rescales the previous `l` and `o` by
`exp(m_prev - m_next)`, and adds `exp(logits - m_next)` summed into `l` and
value-weighted into `o`; after every such update (i.e. after scanning any
list of blocks), `o / l` equals the softmax-weighted value average over all
positions of the blocks visited so far in the lane. -/
theorem claim_C2 (logit : ℕ → Logit) (v : ℕ → ℕ → ℝ) (bk : ℕ) (L : List ℕ) (i : ℕ) :
    (∀ lo acc,
      (computeBlock logit v bk lo acc).m = max acc.m (blockMax logit lo bk)
      ∧ (computeBlock logit v bk lo acc).l
          = expSub acc.m (max acc.m (blockMax logit lo bk)) * acc.l
            + ((blockPositions bk lo).map
                (fun j => expSub (logit j) (max acc.m (blockMax logit lo bk)))).sum
      ∧ (computeBlock logit v bk lo acc).o i
          = expSub acc.m (max acc.m (blockMax logit lo bk)) * acc.o i
            + ((blockPositions bk lo).map
                (fun j => expSub (logit j) (max acc.m (blockMax logit lo bk)) * v j i)).sum)
    ∧ (runBlocks logit v bk L).o i / (runBlocks logit v bk L).l
        = ((posList bk L).map (fun j => eexp (logit j) * v j i)).sum
          / ((posList bk L).map (fun j => eexp (logit j))).sum := by
  refine ⟨fun lo acc => ⟨rfl, rfl, rfl⟩, ?_⟩
  obtain ⟨hm, hl, ho⟩ := runBlocks_spec logit v bk L
  rw [ho i, hl, quotient_conversion]

/-- Witness for C2 at a concrete lane. -/
theorem claim_C2_witness :
    (runBlocks (fun _ => (⊥ : Logit)) (fun _ _ => 0) 1 [0]).o 0
        / (runBlocks (fun _ => (⊥ : Logit)) (fun _ _ => 0) 1 [0]).l
      = ((posList 1 [0]).map (fun j => eexp ((fun _ => (⊥ : Logit)) j) * (fun _ _ => (0 : ℝ)) j 0)).sum
        / ((posList 1 [0]).map (fun j => eexp ((fun _ => (⊥ : Logit)) j))).sum :=
  (claim_C2 (fun _ => (⊥ : Logit)) (fun _ _ => 0) 1 [0] 0).2

/-- Claim C3: for every grid lane with a positive valid-block count covered by
the scan grid, the normalized output `o / l` is written exactly once, namely
at the scan index equal to `valid_block_count - 1`, and every scan step with
index at or beyond the valid-block count is a complete no-op on the lane
state. -/
theorem claim_C3 (logit : ℕ → Logit) (v : ℕ → ℕ → ℝ) (bk : ℕ)
    (offsets : List ℤ) (size grid : ℕ) (st0 : LaneState)
    (h1 : 1 ≤ size) (h2 : size ≤ grid) :
    (runLane logit v bk offsets size grid st0).writes = st0.writes + 1
    ∧ (∀ st idx, ((laneStep logit v bk offsets size st idx).writes ≠ st.writes
        ↔ (idx : ℤ) = (size : ℤ) - 1))
    ∧ (∀ st idx, size ≤ idx → laneStep logit v bk offsets size st idx = st) := by
  refine ⟨?_, fun st idx => laneStep_writes logit v bk offsets size st idx,
    fun st idx h => laneStep_noop logit v bk offsets size st idx h1 h⟩
  rw [runLane_writes, if_pos ⟨h1, h2⟩]

/-- Witness for C3 at a concrete lane. -/
theorem claim_C3_witness :
    ((1 : ℕ) ≤ 1 ∧ (1 : ℕ) ≤ 1)
    ∧ (runLane (fun _ => (⊥ : Logit)) (fun _ _ => 0) 1 [0] 1 1
        { acc := initAcc, out := fun _ => 0, writes := 0 }).writes
      = ({ acc := initAcc, out := fun _ => 0, writes := 0 } : LaneState).writes + 1 :=
  ⟨⟨le_rfl, le_rfl⟩,
    (claim_C3 (fun _ => (⊥ : Logit)) (fun _ _ => 0) 1 [0] 1 1
      { acc := initAcc, out := fun _ => 0, writes := 0 } le_rfl le_rfl).1⟩

/-- Claim C4: a key position contributes to the accumulator only if its
absolute position is below the true KV length and the mask accepts it at the
absolute query position; all other positions have logit `⊥` (negative
infinity), so their contribution to `l` and `o` is zero; and the softmax
scale is applied to the raw `q·k` product before the explicit bias is added
and before masking. -/
theorem claim_C4 (mask : ℕ → ℕ → Bool) (kvLen d bs lo : ℕ) (scale : ℝ)
    (q : ℕ → ℝ) (k v : ℕ → ℕ → ℝ) (bias : ℕ → ℝ) (acc : Acc) (i : ℕ) :
    (∀ j, rawLogit d scale q k bias j
        = scale * (∑ i ∈ Finset.range d, q i * k j i) + bias j)
    ∧ (∀ j m, attends mask kvLen j = false →
        maskedLogit mask kvLen d scale q k bias j = ⊥
        ∧ expSub (maskedLogit mask kvLen d scale q k bias j) m = 0)
    ∧ (computeBlock (maskedLogit mask kvLen d scale q k bias) v bs lo acc).l
        = expSub acc.m
            (max acc.m (blockMax (maskedLogit mask kvLen d scale q k bias) lo bs)) * acc.l
          + ((blockPositions bs lo).map (fun j =>
              if attends mask kvLen j = true
              then expSub ((rawLogit d scale q k bias j : ℝ) : Logit)
                (max acc.m (blockMax (maskedLogit mask kvLen d scale q k bias) lo bs))
              else 0)).sum
    ∧ (computeBlock (maskedLogit mask kvLen d scale q k bias) v bs lo acc).o i
        = expSub acc.m
            (max acc.m (blockMax (maskedLogit mask kvLen d scale q k bias) lo bs)) * acc.o i
          + ((blockPositions bs lo).map (fun j =>
              if attends mask kvLen j = true
              then expSub ((rawLogit d scale q k bias j : ℝ) : Logit)
                (max acc.m (blockMax (maskedLogit mask kvLen d scale q k bias) lo bs)) * v j i
              else 0)).sum := by
  have hbot : ∀ j m, attends mask kvLen j = false →
      maskedLogit mask kvLen d scale q k bias j = ⊥
      ∧ expSub (maskedLogit mask kvLen d scale q k bias j) m = 0 := by
    intro j m h
    have hlog : maskedLogit mask kvLen d scale q k bias j = ⊥ := by
      unfold maskedLogit
      rw [if_neg]
      rw [h]
      exact Bool.false_ne_true
    exact ⟨hlog, by rw [hlog]; exact expSub_bot_left m⟩
  have hterm : ∀ m j, expSub (maskedLogit mask kvLen d scale q k bias j) m
      = if attends mask kvLen j = true
        then expSub ((rawLogit d scale q k bias j : ℝ) : Logit) m
        else 0 := by
    intro m j
    by_cases h : attends mask kvLen j = true
    · rw [if_pos h]
      unfold maskedLogit
      rw [if_pos h]
    · rw [if_neg h]
      exact (hbot j m (by revert h; cases attends mask kvLen j <;> simp)).2
  refine ⟨fun j => rfl, hbot, ?_, ?_⟩
  · show expSub acc.m _ * acc.l + _ = _
    congr 1
    refine congrArg List.sum (List.map_congr_left ?_)
    intro j _
    exact hterm _ j
  · show expSub acc.m _ * acc.o i + _ = _
    congr 1
    refine congrArg List.sum (List.map_congr_left ?_)
    intro j _
    rw [hterm _ j]
    by_cases h : attends mask kvLen j = true
    · rw [if_pos h, if_pos h]
    · rw [if_neg h, if_neg h, zero_mul]

/-- Witness for C4: a masked position (here beyond the KV length bound of a
fully masked row) has logit negative infinity. -/
theorem claim_C4_witness :
    attends (fun _ _ => false) 1 0 = false
    ∧ maskedLogit (fun _ _ => false) 1 1 1 (fun _ => 1) (fun _ _ => 1) (fun _ => 0) 0 = ⊥ :=
  ⟨by decide,
    ((claim_C4 (fun _ _ => false) 1 1 1 0 1 (fun _ => 1) (fun _ _ => 1) (fun _ _ => 1)
      (fun _ => 0) initAcc 0).2.1 0 ⊥ (by decide)).1⟩

/-- Claim C6: `is_supported` returns false (it is a total boolean, never
raising) exactly when the KV cache is of the wrong kind, or the key sequence
length is both not a multiple of the configured block size and greater than
the block size; key sequence lengths at or below one block are supported (for
a correct cache kind) and handled by the driver through the reduced block
size `min block_size k_seq_len`, which then divides the key length. -/
theorem claim_C6 (c : Option KVCacheKind) (len bs : ℕ) :
    (is_supported c len bs = false
      ↔ (c ≠ some KVCacheKind.kvCache ∨ (len % bs ≠ 0 ∧ bs < len)))
    ∧ (len ≤ bs →
        is_supported (some KVCacheKind.kvCache) len bs = true
        ∧ min bs len = len ∧ len % min bs len = 0) := by
  constructor
  · unfold is_supported
    rcases Decidable.em (c = some KVCacheKind.kvCache) with hc | hc
    · simp only [hc]
      by_cases h1 : len % bs = 0
      · simp [h1]
      · by_cases h2 : bs < len
        · simp [h1, h2]
        · simp [h1, h2]
    · simp [hc]
  · intro hle
    have hnot : ¬ bs < len := by omega
    have hmin : min bs len = len := by omega
    refine ⟨?_, hmin, by rw [hmin]; exact Nat.mod_self len⟩
    unfold is_supported
    simp [hnot]

/-- Witness for C6: a one-block key length is supported with the reduced
block size, and a wrong cache kind is rejected. -/
theorem claim_C6_witness :
    ((3 : ℕ) ≤ 4
      ∧ is_supported (some KVCacheKind.kvCache) 3 4 = true
      ∧ min 4 3 = 3 ∧ 3 % min 4 3 = 0)
    ∧ is_supported (some KVCacheKind.pagedKVCache) 8 4 = false :=
  ⟨⟨by decide, (claim_C6 (some KVCacheKind.kvCache) 3 4).2 (by decide)⟩,
    (claim_C6 (some KVCacheKind.pagedKVCache) 8 4).1.mpr (Or.inl (by decide))⟩

/-- Claim C7: the forward pass raises the configuration error (returning it
before any kernel work) exactly when the attention bias has no mask component
or the mask has no target-position metadata from which the true KV length can
be derived. -/
theorem claim_C7 (mb : Option MaskBias) (nb bs d : ℕ) (scale : ℝ) (q : ℕ → ℝ)
    (k v : ℕ → ℕ → ℝ) (bias : ℕ → ℝ) (grid : ℕ) (out0 : ℕ → ℝ) :
    tpuDecodingDriver mb nb bs d scale q k v bias grid out0
      = Except.error "Cannot retrieve MaskFnAttentionBias or target_positions."
    ↔ (mb = none ∨ ∃ m, mb = some m ∧ m.targetPosition = none) := by
  rcases mb with _ | m
  · simp [tpuDecodingDriver]
  · rcases htp : m.targetPosition with _ | tp
    · simp only [tpuDecodingDriver, htp]
      constructor
      · intro _
        exact Or.inr ⟨m, rfl, htp⟩
      · intro _
        trivial
    · simp only [tpuDecodingDriver, htp]
      constructor
      · intro h
        exact absurd h (by simp)
      · intro h
        rcases h with h | ⟨m2, hm2, htp2⟩
        · exact absurd h (by simp)
        · rw [Option.some_inj.mp hm2] at htp
          rw [htp] at htp2
          exact absurd htp2 (by simp)

/-- Witness for C7: a batch without a mask component is rejected with the
configuration error. -/
theorem claim_C7_witness :
    tpuDecodingDriver none 1 1 1 1 (fun _ => 1) (fun _ _ => 1) (fun _ _ => 1)
        (fun _ => 0) 1 (fun _ => 0)
      = Except.error "Cannot retrieve MaskFnAttentionBias or target_positions." :=
  (claim_C7 none 1 1 1 1 (fun _ => 1) (fun _ _ => 1) (fun _ _ => 1) (fun _ => 0) 1
    (fun _ => 0)).mpr (Or.inl rfl)

/-- Claim C10: a grid lane whose valid-block count is zero (every KV block of
the query row is fully masked) never satisfies the finalize condition, so its
output slice is never written and retains its pre-call contents. -/
theorem claim_C10 (mask : ℕ → ℕ → Bool) (nb bs kvLen d : ℕ) (scale : ℝ)
    (q : ℕ → ℝ) (k v : ℕ → ℕ → ℝ) (bias : ℕ → ℝ) (grid : ℕ) (out0 : ℕ → ℝ)
    (hmask : ∀ j, j < nb → build_mask_entry mask bs bs ((kvLen - 1) / bs) j = false) :
    kv_block_offset_size (offsetRow mask nb bs kvLen) bs kvLen = 0
    ∧ laneOutput mask nb bs kvLen d scale q k v bias grid out0 = out0 := by
  have hA : validBlockList mask nb bs ((kvLen - 1) / bs) = [] := by
    unfold validBlockList
    rw [List.filter_eq_nil]
    intro a ha
    rw [hmask a (List.mem_range.mp ha)]
    exact Bool.false_ne_true
  have hsize : kv_block_offset_size (offsetRow mask nb bs kvLen) bs kvLen = 0 := by
    have hrow : offsetRow mask nb bs kvLen = query_iterator_row [] nb := by
      unfold offsetRow
      rw [hA]
    rw [hrow, kv_size_eq]
    simp
  refine ⟨hsize, ?_⟩
  show (runLane (maskedLogit mask kvLen d scale q k bias) v bs
      (remapRow (offsetRow mask nb bs kvLen))
      (kv_block_offset_size (offsetRow mask nb bs kvLen) bs kvLen) grid
      { acc := initAcc, out := out0, writes := 0 }).out = out0
  rw [hsize]
  exact (runLane_size_zero _ v bs _ grid _).1

/-- Witness for C10 at a concrete fully-masked lane. -/
theorem claim_C10_witness :
    (∀ j, j < 2 → build_mask_entry (fun _ _ => false) 1 1 ((1 - 1) / 1) j = false)
    ∧ kv_block_offset_size (offsetRow (fun _ _ => false) 2 1 1) 1 1 = 0
    ∧ laneOutput (fun _ _ => false) 2 1 1 1 1 (fun _ => 1) (fun _ _ => 1)
        (fun _ _ => 1) (fun _ => 0) 3 (fun _ => 7) = (fun _ => 7) :=
  ⟨by decide,
    (claim_C10 (fun _ _ => false) 2 1 1 1 1 (fun _ => 1) (fun _ _ => 1) (fun _ _ => 1)
      (fun _ => 0) 3 (fun _ => 7) (by decide)).1,
    (claim_C10 (fun _ _ => false) 2 1 1 1 1 (fun _ => 1) (fun _ _ => 1) (fun _ _ => 1)
      (fun _ => 0) 3 (fun _ => 7) (by decide)).2⟩

/-- Counterexample to claim C5 as stated: with an arbitrary mask predicate
that masks the whole query-block row, the row maximum used for the remap is
itself the sentinel, so sentinel entries survive the remap. -/
theorem claim_C5_counterexample :
    (-1 : ℤ) ∈ remapRow (offsetRow (fun _ _ => false) 2 1 1) := by decide

/-- Claim C5, amended: provided the batch element's query-block row has at
least one non-masked block (true for the none/causal/sliding-window mask
variants), every entry of the remapped offset row is a real in-range block
index (no sentinel survives), and the remap value is the index of the last
valid (non-masked) block of the row.  An arbitrary predicate masking the
entire row leaves the sentinel in place (see the counterexample); such a lane
has valid-block count zero and performs no compute. -/
theorem claim_C5_amended (mask : ℕ → ℕ → Bool) (nb bs kvLen : ℕ)
    (h : ∃ j, j < nb ∧ build_mask_entry mask bs bs ((kvLen - 1) / bs) j = true) :
    (∀ e ∈ remapRow (offsetRow mask nb bs kvLen), e ≠ -1 ∧ 0 ≤ e ∧ e < nb)
    ∧ ∃ jmax, jmax < nb ∧ build_mask_entry mask bs bs ((kvLen - 1) / bs) jmax = true
        ∧ rowMaxVal (offsetRow mask nb bs kvLen) = ((jmax : ℕ) : ℤ)
        ∧ ∀ j, j < nb → build_mask_entry mask bs bs ((kvLen - 1) / bs) j = true →
            j ≤ jmax := by
  obtain ⟨j0, hj0nb, hj0e⟩ := h
  set r := (kvLen - 1) / bs with hr
  set A := validBlockList mask nb bs r with hAdef
  have hmemA : ∀ c : ℕ, c ∈ A ↔ (c < nb ∧ build_mask_entry mask bs bs r c = true) := by
    intro c
    rw [hAdef]
    unfold validBlockList
    rw [List.mem_filter, List.mem_range]
  have hrow : offsetRow mask nb bs kvLen = query_iterator_row A nb := rfl
  have hrowmem_fwd : ∀ e : ℤ, e ∈ offsetRow mask nb bs kvLen →
      ((∃ c ∈ A, e = ((c : ℕ) : ℤ)) ∨ e = -1) := by
    intro e he
    rw [hrow] at he
    unfold query_iterator_row at he
    rcases List.mem_append.mp he with hm | hrep
    · obtain ⟨c, hc, rfl⟩ := List.mem_map.mp hm
      exact Or.inl ⟨c, hc, rfl⟩
    · exact Or.inr (List.eq_of_mem_replicate hrep)
  have hcoe_mem : ∀ c ∈ A, ((c : ℕ) : ℤ) ∈ offsetRow mask nb bs kvLen := by
    intro c hc
    rw [hrow]
    unfold query_iterator_row
    exact List.mem_append_left _ (List.mem_map.mpr ⟨c, hc, rfl⟩)
  have hj0A : j0 ∈ A := (hmemA j0).mpr ⟨hj0nb, hj0e⟩
  have hMge : ((j0 : ℕ) : ℤ) ≤ rowMaxVal (offsetRow mask nb bs kvLen) :=
    foldl_max_le_of_mem _ (-1) _ (hcoe_mem j0 hj0A)
  have hMne : rowMaxVal (offsetRow mask nb bs kvLen) ≠ -1 := by omega
  obtain ⟨jmax, hjmaxA, hjmaxM⟩ :
      ∃ jmax, jmax ∈ A
        ∧ rowMaxVal (offsetRow mask nb bs kvLen) = ((jmax : ℕ) : ℤ) := by
    rcases foldl_max_mem (offsetRow mask nb bs kvLen) (-1) with hm | hm
    · exact absurd hm hMne
    · rcases hrowmem_fwd _ hm with ⟨c, hc, hce⟩ | hce
      · exact ⟨c, hc, hce⟩
      · exact absurd hce hMne
  have hjmaxnb : jmax < nb := ((hmemA jmax).mp hjmaxA).1
  have hjmaxe : build_mask_entry mask bs bs r jmax = true := ((hmemA jmax).mp hjmaxA).2
  have hbound : ∀ j, j < nb → build_mask_entry mask bs bs r j = true → j ≤ jmax := by
    intro j hjnb hje
    have hjA : j ∈ A := (hmemA j).mpr ⟨hjnb, hje⟩
    have hle : ((j : ℕ) : ℤ) ≤ rowMaxVal (offsetRow mask nb bs kvLen) :=
      foldl_max_le_of_mem (offsetRow mask nb bs kvLen) (-1) _ (hcoe_mem j hjA)
    rw [hjmaxM] at hle
    exact_mod_cast hle
  refine ⟨?_, jmax, hjmaxnb, hjmaxe, hjmaxM, hbound⟩
  intro e' he'
  unfold remapRow at he'
  obtain ⟨e, he, rfl⟩ := List.mem_map.mp he'
  by_cases hsent : e = -1
  · rw [if_pos hsent, hjmaxM]
    refine ⟨by omega, by omega, ?_⟩
    exact_mod_cast hjmaxnb
  · rw [if_neg hsent]
    rcases hrowmem_fwd e he with ⟨c, hc, rfl⟩ | hce
    · have hcnb : c < nb := ((hmemA c).mp hc).1
      refine ⟨hsent, by omega, ?_⟩
      exact_mod_cast hcnb
    · exact absurd hce hsent

/-- Witness for the amended C5 at a concrete causal-like row. -/
theorem claim_C5_amended_witness :
    (∃ j, j < 2 ∧ build_mask_entry (fun _ _ => true) 1 1 ((2 - 1) / 1) j = true)
    ∧ (∀ e ∈ remapRow (offsetRow (fun _ _ => true) 2 1 2), e ≠ -1 ∧ 0 ≤ e ∧ e < 2) :=
  ⟨⟨0, by decide, by decide⟩,
    (claim_C5_amended (fun _ _ => true) 2 1 2 ⟨0, by decide, by decide⟩).1⟩

/-- Claim C1: for every input batch accepted by the driver (a positive block
size reduced to divide the padded length, true per-batch KV length at least 1
and at most the padded length, the scan grid covering the lane's valid-block
count, and a query row attending to at least one real key — the spec's §7
precondition excluding fully masked rows), the fused decode kernel's final
output equals the dense reference attention
`softmax(scale·QK^T + bias, masked) · V` over the full unblocked sequence. -/
theorem claim_C1 (mask : ℕ → ℕ → Bool) (nb bs d tp : ℕ) (scale : ℝ) (q : ℕ → ℝ)
    (k v : ℕ → ℕ → ℝ) (bias : ℕ → ℝ) (grid : ℕ) (out0 : ℕ → ℝ)
    (hbs : 1 ≤ bs) (hlen : tp + 1 ≤ nb * bs)
    (hsupp : ∃ j, j ≤ tp ∧ mask tp j = true)
    (hgrid : kv_block_offset_size (offsetRow mask nb bs (tp + 1)) bs (tp + 1) ≤ grid) :
    tpuDecodingDriver (some ⟨mask, some tp⟩) nb bs d scale q k v bias grid out0
      = Except.ok (denseRef mask (tp + 1) (nb * bs) d scale q k v bias) := by
  show Except.ok (laneOutput mask nb bs (tp + 1) d scale q k v bias grid out0)
    = Except.ok (denseRef mask (tp + 1) (nb * bs) d scale q k v bias)
  congr 1
  refine laneOutput_correct mask nb bs d (tp + 1) scale q k v bias grid out0
    hbs (by omega) hlen ?_ hgrid
  obtain ⟨j, hj, hm⟩ := hsupp
  refine ⟨j, by omega, ?_⟩
  simpa using hm

/-- Witness for C1 at a concrete accepted batch. -/
theorem claim_C1_witness :
    ((1 : ℕ) ≤ 1 ∧ 0 + 1 ≤ 1 * 1
      ∧ (∃ j, j ≤ 0 ∧ (fun _ _ : ℕ => true) 0 j = true)
      ∧ kv_block_offset_size (offsetRow (fun _ _ => true) 1 1 (0 + 1)) 1 (0 + 1) ≤ 1)
    ∧ tpuDecodingDriver (some ⟨fun _ _ => true, some 0⟩) 1 1 1 1 (fun _ => 1)
        (fun _ _ => 1) (fun _ _ => 1) (fun _ => 0) 1 (fun _ => 0)
      = Except.ok (denseRef (fun _ _ => true) (0 + 1) (1 * 1) 1 1 (fun _ => 1)
        (fun _ _ => 1) (fun _ _ => 1) (fun _ => 0)) :=
  ⟨⟨by decide, by decide, ⟨0, by decide, rfl⟩, by decide⟩,
    claim_C1 (fun _ _ => true) 1 1 1 0 1 (fun _ => 1) (fun _ _ => 1) (fun _ _ => 1)
      (fun _ => 0) 1 (fun _ => 0) (by decide) (by decide) ⟨0, by decide, rfl⟩ (by decide)⟩

/-- Pointwise equivalence of the sliding-window closed form with the
brute-force block map of the sliding-window causal predicate. -/
theorem sw_entry_eq (w bs i j : ℕ) (hbs : 1 ≤ bs) :
    build_sliding_window_mask_entry w bs i j
      = build_mask_entry (sliding_window_causal_mask w) bs bs i j := by
  refine bool_eq_of_iff ?_
  constructor
  · intro h
    unfold build_sliding_window_mask_entry at h
    rw [Bool.or_eq_true, Bool.and_eq_true, decide_eq_true_iff, decide_eq_true_iff,
      decide_eq_true_iff] at h
    unfold build_mask_entry
    rw [List.any_eq_true]
    rcases h with rfl | ⟨hji, hwin⟩
    · refine ⟨0, List.mem_range.mpr (by omega), ?_⟩
      rw [List.any_eq_true]
      refine ⟨0, List.mem_range.mpr (by omega), ?_⟩
      unfold sliding_window_causal_mask
      rw [Bool.and_eq_true, decide_eq_true_iff, decide_eq_true_iff]
      omega
    · refine ⟨0, List.mem_range.mpr (by omega), ?_⟩
      rw [List.any_eq_true]
      refine ⟨bs - 1, List.mem_range.mpr (by omega), ?_⟩
      unfold sliding_window_causal_mask
      rw [Bool.and_eq_true, decide_eq_true_iff, decide_eq_true_iff]
      have h1 : (j + 1) * bs ≤ i * bs := Nat.mul_le_mul_right bs (by omega)
      have h2 : (j + 1) * bs = j * bs + bs := Nat.succ_mul j bs
      have h3 : (i - j - 1) * bs = i * bs - (j + 1) * bs := by
        rw [show i - j - 1 = i - (j + 1) by omega]
        exact Nat.sub_mul i (j + 1) bs
      omega
  · intro h
    unfold build_mask_entry at h
    rw [List.any_eq_true] at h
    obtain ⟨a, haR, hinner⟩ := h
    rw [List.any_eq_true] at hinner
    obtain ⟨t, htR, hpred⟩ := hinner
    rw [List.mem_range] at haR htR
    unfold sliding_window_causal_mask at hpred
    rw [Bool.and_eq_true, decide_eq_true_iff, decide_eq_true_iff] at hpred
    obtain ⟨hk, hw⟩ := hpred
    unfold build_sliding_window_mask_entry
    rw [Bool.or_eq_true, Bool.and_eq_true, decide_eq_true_iff, decide_eq_true_iff,
      decide_eq_true_iff]
    have hji : j ≤ i := by
      by_contra hcon
      have hij1 : i + 1 ≤ j := by omega
      have h1 : (i + 1) * bs ≤ j * bs := Nat.mul_le_mul_right bs hij1
      have h2 : (i + 1) * bs = i * bs + bs := Nat.succ_mul i bs
      omega
    by_cases heq : j = i
    · exact Or.inl heq
    · refine Or.inr ⟨by omega, ?_⟩
      have h1 : (j + 1) * bs ≤ i * bs := Nat.mul_le_mul_right bs (by omega)
      have h2 : (j + 1) * bs = j * bs + bs := Nat.succ_mul j bs
      have h3 : (i - j - 1) * bs = i * bs - (j + 1) * bs := by
        rw [show i - j - 1 = i - (j + 1) by omega]
        exact Nat.sub_mul i (j + 1) bs
      omega

/-- Claim C8: for every sliding-window mask, block size and query-block row,
the closed-form block-index computation produces exactly the same non-empty
KV block set as the brute-force evaluation of the mask predicate over every
`(q, k)` pair of the block grid, so the driver builds identical offset rows
through either path. -/
theorem claim_C8 (w bs i j nb kvLen : ℕ) (hbs : 1 ≤ bs) :
    build_sliding_window_mask_entry w bs i j
      = build_mask_entry (sliding_window_causal_mask w) bs bs i j
    ∧ (List.range nb).filter (fun c => build_sliding_window_mask_entry w bs i c)
      = (List.range nb).filter
          (fun c => build_mask_entry (sliding_window_causal_mask w) bs bs i c)
    ∧ offsetRowSliding w nb bs kvLen
      = offsetRow (sliding_window_causal_mask w) nb bs kvLen := by
  refine ⟨sw_entry_eq w bs i j hbs, ?_, ?_⟩
  · exact List.filter_congr (fun c _ => sw_entry_eq w bs i c hbs)
  · unfold offsetRowSliding offsetRow validBlockList
    congr 1
    exact List.filter_congr (fun c _ => sw_entry_eq w bs ((kvLen - 1) / bs) c hbs)

/-- Witness for C8 at a concrete window, block size and block pair. -/
theorem claim_C8_witness :
    ((1 : ℕ) ≤ 2)
    ∧ build_sliding_window_mask_entry 1 2 1 0
      = build_mask_entry (sliding_window_causal_mask 1) 2 2 1 0
    ∧ offsetRowSliding 1 4 2 8 = offsetRow (sliding_window_causal_mask 1) 4 2 8 :=
  ⟨by decide, (claim_C8 1 2 1 0 4 8 (by decide)).1, (claim_C8 1 2 1 0 4 8 (by decide)).2.2⟩

/-- Counterexample to claim C9 as stated: the decode path never reads a
`logit_sink` value (neither the kernel nor the driver takes one), so on a
concrete batch carrying `logit_sink = 0` its output differs from the
reference whose softmax denominator includes the sink term. -/
theorem claim_C9_counterexample :
    laneOutput (fun _ _ => true) 1 1 1 1 1 (fun _ => 1) (fun _ _ => 1) (fun _ _ => 2)
        (fun _ => 0) 1 (fun _ => 0) 0
      ≠ denseRefWithSink 0 (fun _ _ => true) 1 1 1 1 (fun _ => 1) (fun _ _ => 1)
        (fun _ _ => 2) (fun _ => 0) 0 := by
  have hlane := laneOutput_correct (fun _ _ => true) 1 1 1 1 1 (fun _ => 1) (fun _ _ => 1)
    (fun _ _ => 2) (fun _ => 0) 1 (fun _ => 0) (by decide) (by decide) (by decide)
    ⟨0, by decide, rfl⟩ (by decide)
  rw [congrFun hlane 0]
  have he : (0 : ℝ) < Real.exp 1 := Real.exp_pos 1
  have hL : denseRef (fun _ _ => true) 1 1 1 1 (fun _ => 1) (fun _ _ => 1) (fun _ _ => 2)
      (fun _ => 0) 0 = 2 := by
    unfold denseRef refWeight attends rawLogit
    rw [Finset.sum_range_one, Finset.sum_range_one, Finset.sum_range_one]
    norm_num
  have hR : denseRefWithSink 0 (fun _ _ => true) 1 1 1 1 (fun _ => 1) (fun _ _ => 1)
      (fun _ _ => 2) (fun _ => 0) 0 = 2 * Real.exp 1 / (Real.exp 1 + 1) := by
    unfold denseRefWithSink refWeight attends rawLogit
    rw [Finset.sum_range_one, Finset.sum_range_one]
    norm_num [Real.exp_zero]
    ring_nf
  rw [hL, hR]
  intro hcon
  have hd : (0 : ℝ) < Real.exp 1 + 1 := by linarith
  rw [eq_div_iff (ne_of_gt hd)] at hcon
  nlinarith

/-- Claim C9, amended: the decode path ignores any `logit_sink` in the input
batch — neither the kernel nor the driver consumes it — so for every sink
value the output is the reference attention with no sink term in the softmax
denominator. -/
theorem claim_C9_amended (sink : ℝ) (mask : ℕ → ℕ → Bool) (nb bs d tp : ℕ)
    (scale : ℝ) (q : ℕ → ℝ) (k v : ℕ → ℕ → ℝ) (bias : ℕ → ℝ) (grid : ℕ)
    (out0 : ℕ → ℝ)
    (hbs : 1 ≤ bs) (hlen : tp + 1 ≤ nb * bs)
    (hsupp : ∃ j, j ≤ tp ∧ mask tp j = true)
    (hgrid : kv_block_offset_size (offsetRow mask nb bs (tp + 1)) bs (tp + 1) ≤ grid) :
    tpuDecodingDriver (some ⟨mask, some tp⟩) nb bs d scale q k v bias grid out0
      = Except.ok (denseRef mask (tp + 1) (nb * bs) d scale q k v bias) := by
  show Except.ok (laneOutput mask nb bs (tp + 1) d scale q k v bias grid out0)
    = Except.ok (denseRef mask (tp + 1) (nb * bs) d scale q k v bias)
  congr 1
  refine laneOutput_correct mask nb bs d (tp + 1) scale q k v bias grid out0
    hbs (by omega) hlen ?_ hgrid
  obtain ⟨j, hj, hm⟩ := hsupp
  refine ⟨j, by omega, ?_⟩
  simpa using hm

/-- Witness for the amended C9 at a concrete batch and sink value. -/
theorem claim_C9_amended_witness :
    ((1 : ℕ) ≤ 1 ∧ 0 + 1 ≤ 1 * 1
      ∧ (∃ j, j ≤ 0 ∧ (fun _ _ : ℕ => true) 0 j = true)
      ∧ kv_block_offset_size (offsetRow (fun _ _ => true) 1 1 (0 + 1)) 1 (0 + 1) ≤ 1)
    ∧ tpuDecodingDriver (some ⟨fun _ _ => true, some 0⟩) 1 1 1 1 (fun _ => 1)
        (fun _ _ => 1) (fun _ _ => 2) (fun _ => 0) 1 (fun _ => 0)
      = Except.ok (denseRef (fun _ _ => true) (0 + 1) (1 * 1) 1 1 (fun _ => 1)
        (fun _ _ => 1) (fun _ _ => 2) (fun _ => 0)) :=
  ⟨⟨by decide, by decide, ⟨0, by decide, rfl⟩, by decide⟩,
    claim_C9_amended 0 (fun _ _ => true) 1 1 1 0 1 (fun _ => 1) (fun _ _ => 1)
      (fun _ _ => 2) (fun _ => 0) 1 (fun _ => 0) (by decide) (by decide)
      ⟨0, by decide, rfl⟩ (by decide)⟩

end TpuDecoding
